import Mathlib

/-!
Verification of the pipeline MPMC broadcast queue core.

The development shallowly embeds the queue's concurrency engine:
the packed index/wrap-counter word (CountedU16 in util/countedu16.rs),
the per-consumer read cursors and reader groups (queue/read_cursor.rs),
and the producer head, tail cache, slot ring, push and pop paths
(queue/multiqueue.rs).  Machine usize words are Nat values below 2^64,
with wrapping arithmetic written as explicit remainders; the low 16 bits
of a packed word are the ring index and the high 48 bits the wrap counter.
All definitions are executable and follow the source line by line.
-/

namespace Pipeline

/-- The usize modulus on 64-bit hosts: 2 to the 64. -/
def USIZE : Nat := 18446744073709551616

/-- The u16 modulus: 2 to the 16. -/
def U16MOD : Nat := 65536

/-- The number of distinct wrap-counter values in the 48 high bits of a
packed word: 2 to the 48. -/
def POW48 : Nat := 281474976710656

/-- The cast `as u16` of a usize word: its low sixteen bits. -/
def lou16 (a : Nat) : Nat := a % U16MOD

/-- The shift right by sixteen of a usize word: its high bits. -/
def hibits (a : Nat) : Nat := a / U16MOD

/-- Wrapping usize addition. -/
def wadd (a b : Nat) : Nat := (a + b) % USIZE

/-- Wrapping usize subtraction, for a left operand below the modulus. -/
def wsub (a b : Nat) : Nat := (a + (USIZE - b % USIZE)) % USIZE

/-- CountedU16::load_count on a raw word: the low half plus the ring size
times the high half, i.e. the total position. -/
def load_count (wrap w : Nat) : Nat := lou16 w + wrap * hibits w

/-- CountedU16::get_previous: the raw word that preceded the current word w
if b items were added, rolling the wrap counter back on wrap. -/
def get_previous (wrap w b : Nat) : Nat :=
  let lower := lou16 w
  let upper := w - lower
  if b ≤ lower then (lower - b) + upper
  else (wrap - (b - lower)) + wsub upper U16MOD

/-- Transaction::matches_previous: whether val is the snapshot minus one
whole wrap (a wrapping subtraction of 1 shifted left by 16). -/
def matches_previous (loaded v : Nat) : Bool := wsub loaded U16MOD == v

/-- The advanced word Transaction::commit builds and then tries to install
with its compare-exchange: bump the low half by b, subtracting the ring
size and carrying one into the high half when the bumped index reaches it. -/
def commit_store_val (wrap loaded b : Nat) : Nat :=
  let bottom := lou16 loaded
  let next := (bottom + b) % U16MOD
  if wrap ≤ next then (next - wrap) + hibits (wadd loaded U16MOD) * U16MOD
  else next + hibits loaded * U16MOD

/-- The advanced word Transaction::commit_direct stores unconditionally. -/
def commit_direct_store_val (wrap loaded b : Nat) : Nat :=
  let next := (b + lou16 loaded) % U16MOD
  if wrap ≤ next then (next - wrap) + hibits (wadd loaded U16MOD) * U16MOD
  else next + hibits loaded * U16MOD

/-- Transaction::commit: compare-exchange the cell from the snapshot to the
advanced word.  cur is the value currently in the cell and loaded the
snapshot held by the transaction.  Returns the new cell value together
with, on contention, the freshly observed value for the retry
transaction. -/
def commit (wrap cur loaded b : Nat) : Nat × Option Nat :=
  if cur == loaded then (commit_store_val wrap loaded b, none)
  else (cur, some cur)

/-- The words built by the two commit paths coincide (shared helper). -/
theorem commit_store_val_eq_direct (wrap loaded b : Nat) :
    commit_store_val wrap loaded b = commit_direct_store_val wrap loaded b := by
  simp [commit_store_val, commit_direct_store_val, Nat.add_comm]

/-- Claim C9: for every snapshot and increment, the advanced word that
commit attempts to install via compare-exchange is identical to the word
that commit_direct stores; the two paths differ only in that commit
installs the word exactly when the cell still equals the snapshot, and
otherwise leaves the cell unchanged and hands back the observed value. -/
theorem commit_refines_commit_direct (wrap cur loaded b : Nat) :
    commit_store_val wrap loaded b = commit_direct_store_val wrap loaded b ∧
    commit wrap cur loaded b =
      (if cur = loaded then (commit_direct_store_val wrap loaded b, none)
       else (cur, some cur)) := by
  refine ⟨commit_store_val_eq_direct wrap loaded b, ?_⟩
  simp only [commit, beq_iff_eq, commit_store_val_eq_direct]

/-- One commit from the source applied to the current word w: either a
commit_direct, or a successful commit, whose compare-exchange runs from a
snapshot equal to the current word. -/
def apply_commit (wrap : Nat) (w : Nat) (op : Bool × Nat) : Nat :=
  if op.1 then commit_direct_store_val wrap w op.2 else (commit wrap w w op.2).1

/-- A sequence of commits applied to a CountedU16 raw word. -/
def run_commits (wrap w : Nat) (ops : List (Bool × Nat)) : Nat :=
  ops.foldl (apply_commit wrap) w

/-- One commit step advances the total position by exactly the increment,
keeps the index inside the ring and the word inside the machine word,
provided the increment is at most the ring size, the 16-bit index addition
cannot overflow, and the wrap counter is not about to alias. -/
theorem commit_direct_store_val_count (wrap w b : Nat)
    (hwrap1 : 1 ≤ wrap) (hb : b ≤ wrap) (hbw : wrap + b ≤ 65536)
    (hidx : lou16 w < wrap) (hw : w < USIZE)
    (halias : load_count wrap w + b < POW48) :
    load_count wrap (commit_direct_store_val wrap w b) = load_count wrap w + b ∧
    lou16 (commit_direct_store_val wrap w b) < wrap ∧
    commit_direct_store_val wrap w b < USIZE := by
  have hidx' : w % 65536 < wrap := hidx
  have hw' : w < 18446744073709551616 := hw
  have halias' : w % 65536 + wrap * (w / 65536) + b < 281474976710656 := halias
  have hKle : w / 65536 ≤ wrap * (w / 65536) :=
    Nat.le_mul_of_pos_left _ hwrap1
  have hnext : (b + w % 65536) % 65536 = b + w % 65536 :=
    Nat.mod_eq_of_lt (by omega)
  by_cases hcase : wrap ≤ b + w % 65536
  · have hb1 : 1 ≤ b := by omega
    have hh1 : w / 65536 + 1 < 281474976710656 := by omega
    have hwadd : (w + 65536) % 18446744073709551616 = w + 65536 := by omega
    have hval : commit_direct_store_val wrap w b =
        (b + w % 65536 - wrap) + (w / 65536 + 1) * 65536 := by
      simp only [commit_direct_store_val, lou16, hibits, wadd, U16MOD, USIZE]
      rw [hnext, if_pos hcase, hwadd]
      have : (w + 65536) / 65536 = w / 65536 + 1 := by omega
      rw [this]
    rw [hval]
    have hmul : wrap * (w / 65536 + 1) = wrap * (w / 65536) + wrap :=
      by rw [Nat.mul_add, Nat.mul_one]
    refine ⟨?_, by simp only [lou16, U16MOD]; omega, by simp only [USIZE]; omega⟩
    simp only [load_count, lou16, hibits, U16MOD]
    have hlow : ((b + w % 65536 - wrap) + (w / 65536 + 1) * 65536) % 65536 =
        b + w % 65536 - wrap := by omega
    have hhigh : ((b + w % 65536 - wrap) + (w / 65536 + 1) * 65536) / 65536 =
        w / 65536 + 1 := by omega
    rw [hlow, hhigh, hmul]
    omega
  · have hval : commit_direct_store_val wrap w b =
        (b + w % 65536) + (w / 65536) * 65536 := by
      simp only [commit_direct_store_val, lou16, hibits, wadd, U16MOD, USIZE]
      rw [hnext, if_neg hcase]
    rw [hval]
    refine ⟨?_, by simp only [lou16, U16MOD]; omega, by simp only [USIZE]; omega⟩
    simp only [load_count, lou16, hibits, U16MOD]
    have hlow : ((b + w % 65536) + (w / 65536) * 65536) % 65536 =
        b + w % 65536 := by omega
    have hhigh : ((b + w % 65536) + (w / 65536) * 65536) / 65536 =
        w / 65536 := by omega
    rw [hlow, hhigh]
    omega

/-- Running a list of commits adds the sum of the increments to the total
position, keeps the index inside the ring and the word inside the machine
word (shared helper, general starting word). -/
theorem run_commits_facts (wrap : Nat) (ops : List (Bool × Nat)) :
    ∀ w, 1 ≤ wrap → (∀ p ∈ ops, p.2 ≤ wrap ∧ wrap + p.2 ≤ 65536) →
      lou16 w < wrap → w < USIZE →
      load_count wrap w + (ops.map Prod.snd).sum < POW48 →
      load_count wrap (run_commits wrap w ops) =
        load_count wrap w + (ops.map Prod.snd).sum ∧
      lou16 (run_commits wrap w ops) < wrap ∧
      run_commits wrap w ops < USIZE := by
  induction ops with
  | nil =>
    intro w _ _ hidx hw _
    refine ⟨by simp [run_commits], ?_, ?_⟩
    · simpa [run_commits] using hidx
    · simpa [run_commits] using hw
  | cons p rest ih =>
    intro w hwrap1 hops hidx hw halias
    have hsum : ((p :: rest).map Prod.snd).sum = p.2 + (rest.map Prod.snd).sum := by
      simp
    have hp := hops p (by simp)
    have halias1 : load_count wrap w + p.2 < POW48 := by
      rw [hsum] at halias
      omega
    have hstep := commit_direct_store_val_count wrap w p.2 hwrap1 hp.1 hp.2 hidx hw halias1
    have happ : apply_commit wrap w p = commit_direct_store_val wrap w p.2 := by
      rcases p with ⟨b1, b2⟩
      cases b1
      · simp [apply_commit, commit, commit_store_val_eq_direct]
      · simp [apply_commit]
    have halias2 : load_count wrap (commit_direct_store_val wrap w p.2) +
        (rest.map Prod.snd).sum < POW48 := by
      rw [hstep.1]
      rw [hsum] at halias
      omega
    have hrec := ih (commit_direct_store_val wrap w p.2) hwrap1
      (fun q hq => hops q (by simp [hq])) hstep.2.1 hstep.2.2 halias2
    have hrun : run_commits wrap w (p :: rest) =
        run_commits wrap (commit_direct_store_val wrap w p.2) rest := by
      rw [show run_commits wrap w (p :: rest) =
          run_commits wrap (apply_commit wrap w p) rest from rfl, happ]
    rw [hrun, hsum]
    refine ⟨?_, hrec.2.1, hrec.2.2⟩
    rw [hrec.1, hstep.1]
    omega

/-- Claim C4 counterexample: with ring size 65535 the two increments 65534
and 2 each satisfy by at most the ring size and total 65536, which is far
below any aliasing bound, yet load_count afterwards is 0 and not 65536:
the 16-bit index addition overflowed and the carry into the wrap counter
was lost. -/
theorem counted_commit_law_counterexample :
    (∀ p ∈ [((true : Bool), 65534), ((true : Bool), 2)], p.2 ≤ 65535) ∧
    (([((true : Bool), 65534), ((true : Bool), 2)].map Prod.snd).sum = 65536) ∧
    load_count 65535
      (run_commits 65535 0 [((true : Bool), 65534), ((true : Bool), 2)]) ≠ 65536 := by
  decide

/-- Claim C4 (amended): starting a CountedU16 at zero and applying any
sequence of commit_direct calls and successful commit calls whose
increments each satisfy by at most W and W + by at most 2^16 (so the
16-bit index addition cannot overflow) and sum to M below 2^48 (so the
wraps field does not alias), load_count afterwards returns exactly M. -/
theorem counted_commit_law (wrap : Nat) (ops : List (Bool × Nat))
    (hwrap1 : 1 ≤ wrap)
    (hops : ∀ p ∈ ops, p.2 ≤ wrap ∧ wrap + p.2 ≤ 65536)
    (halias : (ops.map Prod.snd).sum < POW48) :
    load_count wrap (run_commits wrap 0 ops) = (ops.map Prod.snd).sum := by
  have h0 : lou16 0 < wrap := by
    simp only [lou16, U16MOD]
    omega
  have h1 : (0 : Nat) < USIZE := by simp [USIZE]
  have h2 : load_count wrap 0 = 0 := by simp [load_count, lou16, hibits]
  have h := (run_commits_facts wrap ops 0 hwrap1 hops h0 h1 (by rw [h2]; omega)).1
  rw [h2] at h
  omega

/-- Witness for Claim C4, the literal scenario of the spec: ring size 10,
one thousand direct commits of one leave total 1000, index 0, wraps 100. -/
theorem counted_commit_law_witness :
    load_count 10 (run_commits 10 0 (List.replicate 1000 ((true : Bool), 1))) =
      ((List.replicate 1000 ((true : Bool), 1)).map Prod.snd).sum ∧
    lou16 (run_commits 10 0 (List.replicate 1000 ((true : Bool), 1))) = 0 ∧
    hibits (run_commits 10 0 (List.replicate 1000 ((true : Bool), 1))) = 100 := by
  have hops : ∀ p ∈ List.replicate 1000 ((true : Bool), 1),
      p.2 ≤ 10 ∧ 10 + p.2 ≤ 65536 := by
    intro p hp
    rw [List.eq_of_mem_replicate hp]
    exact ⟨by norm_num, by norm_num⟩
  have hsum : ((List.replicate 1000 ((true : Bool), 1)).map Prod.snd).sum = 1000 := by
    rw [List.map_replicate, List.sum_replicate, smul_eq_mul, mul_one]
  have hc := counted_commit_law 10 (List.replicate 1000 ((true : Bool), 1))
    (by norm_num) hops (by rw [hsum]; norm_num [POW48])
  have hinv := run_commits_facts 10 (List.replicate 1000 ((true : Bool), 1)) 0
    (by norm_num) hops (by norm_num [lou16, U16MOD]) (by norm_num [USIZE])
    (by
      have hz : load_count 10 0 = 0 := by simp [load_count, lou16, hibits]
      rw [hz, hsum]
      norm_num [POW48])
  refine ⟨hc, ?_, ?_⟩
  · have h1 : load_count 10 (run_commits 10 0 (List.replicate 1000 ((true : Bool), 1))) =
        1000 := by rw [hc, hsum]
    have h2 := hinv.2.1
    simp only [load_count] at h1
    omega
  · have h1 : load_count 10 (run_commits 10 0 (List.replicate 1000 ((true : Bool), 1))) =
        1000 := by rw [hc, hsum]
    have h2 := hinv.2.1
    simp only [load_count] at h1
    omega

/-- Claim C5 counterexample: with ring size 4, the snapshot word 0 (index
0, wrap counter 0) and the word it wraps back to under the wrapping
subtraction both carry index 0, matches_previous answers true, yet the
total positions do not differ by 4: the wrap counter underflowed. -/
theorem matches_previous_counterexample :
    matches_previous 0 (USIZE - U16MOD) = true ∧
    lou16 0 < 4 ∧ lou16 (USIZE - U16MOD) < 4 ∧
    load_count 4 (USIZE - U16MOD) + 4 ≠ load_count 4 0 := by
  decide

/-- Claim C5 (amended): for every snapshot t of a CountedU16 with ring
size W (index below W) whose wrap counter is at least 1 (so the wrapping
subtraction cannot underflow), and every raw word v with index below W,
matches_previous answers true exactly when the total position of t is the
total position of v plus W. -/
theorem matches_previous_iff (wrap t v : Nat)
    (hwrap1 : 1 ≤ wrap)
    (ht : t < USIZE) (hv : v < USIZE)
    (hit : lou16 t < wrap) (hiv : lou16 v < wrap)
    (hwr : 1 ≤ hibits t) :
    (matches_previous t v = true ↔ load_count wrap v + wrap = load_count wrap t) := by
  have ht' : t < 18446744073709551616 := ht
  have hv' : v < 18446744073709551616 := hv
  have hit' : t % 65536 < wrap := hit
  have hiv' : v % 65536 < wrap := hiv
  have htge : 65536 ≤ t := by
    have h1 : 1 ≤ t / 65536 := hwr
    omega
  have hmp : wsub t U16MOD = t - 65536 := by
    simp only [wsub, U16MOD, USIZE]
    omega
  have hbeq : matches_previous t v = true ↔ t - 65536 = v := by
    simp [matches_previous, hmp]
  rw [hbeq]
  simp only [load_count, lou16, hibits, U16MOD]
  constructor
  · intro hveq
    have h1 : v % 65536 = t % 65536 := by omega
    have h2 : v / 65536 + 1 = t / 65536 := by omega
    have h3 : wrap * (t / 65536) = wrap * (v / 65536) + wrap := by
      rw [← h2, Nat.mul_add, Nat.mul_one]
    rw [h1, h3]
    omega
  · intro hc
    have e2 : v % 65536 + wrap * (v / 65536 + 1) = t % 65536 + wrap * (t / 65536) := by
      rw [Nat.mul_add, Nat.mul_one]
      omega
    have h1 : v % 65536 = t % 65536 := by
      have h := congrArg (· % wrap) e2
      simpa [Nat.add_mul_mod_self_left, Nat.mod_eq_of_lt hiv', Nat.mod_eq_of_lt hit']
        using h
    have h2 : wrap * (v / 65536 + 1) = wrap * (t / 65536) := by omega
    have h3 : v / 65536 + 1 = t / 65536 :=
      Nat.eq_of_mul_eq_mul_left hwrap1 h2
    have h4 : v % 65536 + 65536 * (v / 65536) = v := Nat.mod_add_div v 65536
    have h5 : t % 65536 + 65536 * (t / 65536) = t := Nat.mod_add_div t 65536
    omega

/-- Witness for Claim C5: with ring size 4, the head word of index 0 at
wrap 1 matches exactly the previous-wrap word 0, whose total position is
4 less. -/
theorem matches_previous_iff_witness :
    matches_previous 65536 0 = true ∧ load_count 4 0 + 4 = load_count 4 65536 :=
  have h := matches_previous_iff 4 65536 0 (by norm_num) (by norm_num [USIZE])
    (by norm_num [USIZE]) (by norm_num [lou16, U16MOD]) (by norm_num [lou16, U16MOD])
    (by norm_num [hibits, U16MOD])
  ⟨by decide, h.mp (by decide)⟩

/-- Claim C6 counterexample: with ring size 65535 and the word holding
index 65534 at wrap 1, advancing by 2 as commit_direct computes it and
then asking get_previous for the word 2 items back does not return the
original word: the 16-bit index addition overflowed during the advance. -/
theorem get_previous_counterexample :
    lou16 131070 < 65535 ∧ (2 : Nat) ≤ 65535 ∧
    get_previous 65535 (commit_direct_store_val 65535 131070 2) 2 ≠ 131070 := by
  decide

/-- Claim C6 (amended): for every raw word p of a CountedU16 with ring
size W (index of p below W) and every increment at most W, provided the
16-bit index addition cannot overflow (index of p plus the increment
below 2^16) and the wrap counter of p is not at its maximum, if the
position holds the word obtained by advancing p as commit_direct computes
it, then get_previous returns exactly p. -/
theorem get_previous_inverse (wrap p b : Nat)
    (hwrap1 : 1 ≤ wrap) (hp : p < USIZE) (hip : lou16 p < wrap)
    (hb : b ≤ wrap) (hov : lou16 p + b < 65536)
    (halias : hibits p + 1 < POW48) :
    get_previous wrap (commit_direct_store_val wrap p b) b = p := by
  have hp' : p < 18446744073709551616 := hp
  have hip' : p % 65536 < wrap := hip
  have hov' : p % 65536 + b < 65536 := hov
  have hal' : p / 65536 + 1 < 281474976710656 := halias
  have hnext : (b + p % 65536) % 65536 = b + p % 65536 :=
    Nat.mod_eq_of_lt (by omega)
  by_cases hcase : wrap ≤ b + p % 65536
  · have hwadd : (p + 65536) % 18446744073709551616 = p + 65536 := by omega
    have hdiv : (p + 65536) / 65536 = p / 65536 + 1 := by omega
    have hval : commit_direct_store_val wrap p b =
        (b + p % 65536 - wrap) + (p / 65536 + 1) * 65536 := by
      simp only [commit_direct_store_val, lou16, hibits, wadd, U16MOD, USIZE]
      rw [hnext, if_pos hcase, hwadd, hdiv]
    rw [hval]
    have hlow : ((b + p % 65536 - wrap) + (p / 65536 + 1) * 65536) % 65536 =
        b + p % 65536 - wrap := by omega
    simp only [get_previous, lou16, wsub, U16MOD, USIZE, hlow]
    rw [if_neg (by omega)]
    omega
  · have hval : commit_direct_store_val wrap p b =
        (b + p % 65536) + (p / 65536) * 65536 := by
      simp only [commit_direct_store_val, lou16, hibits, wadd, U16MOD, USIZE]
      rw [hnext, if_neg hcase]
    rw [hval]
    have hlow : ((b + p % 65536) + (p / 65536) * 65536) % 65536 =
        b + p % 65536 := by omega
    simp only [get_previous, lou16, wsub, U16MOD, USIZE, hlow]
    rw [if_pos (by omega)]
    omega

/-- Witness for Claim C6: ring size 4, word of index 3 at wrap 0,
advanced by 2 into index 1 at wrap 1, and get_previous recovers it. -/
theorem get_previous_inverse_witness :
    lou16 3 < 4 ∧ (2 : Nat) ≤ 4 ∧
    get_previous 4 (commit_direct_store_val 4 3 2) 2 = 3 :=
  ⟨by decide, by decide,
    get_previous_inverse 4 3 2 (by norm_num) (by norm_num [USIZE])
      (by norm_num [lou16, U16MOD]) (by norm_num)
      (by norm_num [lou16, U16MOD]) (by norm_num [hibits, U16MOD, POW48])⟩

/-- The per-consumer fast-path flag of read_cursor.rs. -/
inductive ReaderState
  | Single
  | Multi
deriving DecidableEq

/-- Reader of read_cursor.rs: a cursor position packed as a CountedU16
raw word with its ring size, the Single/Multi mode flag, and the count of
handles sharing the cursor. -/
structure Reader where
  pos : Nat
  wrap : Nat
  state : ReaderState
  num_consumers : Nat
deriving DecidableEq

/-- Reader position as a total count: pos_data.load_count. -/
def Reader.count (r : Reader) : Nat := load_count r.wrap r.pos

/-- ReadAttempt of read_cursor.rs: the snapshot word of the linked
transaction together with the mode captured when the attempt was
loaded. -/
structure ReadAttempt where
  linked : Nat
  state : ReaderState
deriving DecidableEq

/-- Reader::load_attempt: snapshot the position and the current mode. -/
def Reader.load_attempt (r : Reader) : ReadAttempt :=
  ⟨r.pos, r.state⟩

/-- ReadAttempt::commit_attempt: Single commits by unconditional store;
Multi with a share count of one demotes the cursor to Single and commits
by store; otherwise commit by compare-exchange, handing back a fresh
Multi attempt on the freshly observed value when the exchange fails.
Returns the updated reader together with the optional retry attempt. -/
def commit_attempt (r : Reader) (a : ReadAttempt) (b : Nat) :
    Reader × Option ReadAttempt :=
  match a.state with
  | ReaderState.Single =>
    ({ r with pos := commit_direct_store_val r.wrap a.linked b }, none)
  | ReaderState.Multi =>
    if r.num_consumers == 1 then
      ({ r with state := ReaderState.Single,
                pos := commit_direct_store_val r.wrap a.linked b }, none)
    else
      match commit r.wrap r.pos a.linked b with
      | (newpos, none) => ({ r with pos := newpos }, none)
      | (newpos, some cval) =>
        ({ r with pos := newpos }, some ⟨cval, ReaderState.Multi⟩)

/-- ReaderGroup::get_max_diff, inner loop: walk the cursors accumulating
the largest wrapping difference between the supplied head position and
each cursor's total count, returning early with none as soon as one
difference exceeds the u16 range (a cursor appears ahead of the head). -/
def get_max_diff_from (cur_writer : Nat) : List Reader → Nat → Option Nat
  | [], max_diff => some max_diff
  | r :: rest, max_diff =>
    let rpos := load_count r.wrap r.pos
    let diff := wsub cur_writer rpos
    if 65535 < diff then none
    else get_max_diff_from cur_writer rest (if max_diff < diff then diff else max_diff)

/-- ReaderGroup::get_max_diff over the group's cursor list. -/
def get_max_diff (g : List Reader) (cur_writer : Nat) : Option Nat :=
  get_max_diff_from cur_writer g 0

/-- A reader word stays well below the usize modulus: its total count is
at most the modulus minus 2^48 (shared helper). -/
theorem reader_count_bound (r : Reader) (hp : r.pos < USIZE) (hw : r.wrap < 65536) :
    Reader.count r ≤ USIZE - POW48 := by
  have hp' : r.pos < 18446744073709551616 := hp
  have h1 : r.pos % 65536 ≤ 65535 := by omega
  have h2 : r.pos / 65536 ≤ 281474976710655 := by omega
  have h3 : r.wrap * (r.pos / 65536) ≤ 65535 * 281474976710655 :=
    Nat.mul_le_mul (by omega) h2
  have h4 : Reader.count r = r.pos % 65536 + r.wrap * (r.pos / 65536) := rfl
  simp only [USIZE, POW48]
  omega

/-- The wrapping difference head minus count never lands in the middle:
it is the plain difference when the cursor is behind, and exceeds the u16
range when the cursor is ahead (shared helper). -/
theorem wsub_diff_spec (cw c : Nat) (hcw : cw < 65536) (hc : c ≤ USIZE - POW48) :
    (c ≤ cw → wsub cw c = cw - c) ∧ (cw < c → 65535 < wsub cw c) := by
  simp only [wsub, USIZE, POW48] at *
  omega

/-- Inner-loop specification of get_max_diff (shared helper). -/
theorem get_max_diff_from_spec (cw : Nat) (g : List Reader) :
    ∀ m, m ≤ 65535 → cw < 65536 →
      (∀ r ∈ g, r.pos < USIZE ∧ r.wrap < 65536) →
      (get_max_diff_from cw g m = none ↔ ∃ r ∈ g, cw < Reader.count r) ∧
      ((∀ r ∈ g, Reader.count r ≤ cw) →
        get_max_diff_from cw g m =
          some ((g.map (fun r => cw - Reader.count r)).foldl max m)) := by
  induction g with
  | nil =>
    intro m _ _ _
    constructor
    · simp [get_max_diff_from]
    · intro _
      simp [get_max_diff_from]
  | cons r rest ih =>
    intro m hm hcw hg
    have hr := hg r (by simp)
    have hbound := reader_count_bound r hr.1 hr.2
    have hws := wsub_diff_spec cw (Reader.count r) hcw hbound
    have hcount : load_count r.wrap r.pos = Reader.count r := rfl
    by_cases hca : cw < Reader.count r
    · have hdiff : 65535 < wsub cw (Reader.count r) := hws.2 hca
      constructor
      · simp only [get_max_diff_from, hcount]
        rw [if_pos hdiff]
        simp only [true_iff]
        exact ⟨r, by simp, hca⟩
      · intro hall
        exact absurd (hall r (by simp)) (by omega)
    · have hle : Reader.count r ≤ cw := by omega
      have hdiff : wsub cw (Reader.count r) = cw - Reader.count r := hws.1 hle
      have hnotbig : ¬ 65535 < wsub cw (Reader.count r) := by omega
      have hnew : (if m < wsub cw (Reader.count r) then wsub cw (Reader.count r) else m) =
          max m (cw - Reader.count r) := by
        rw [hdiff, Nat.max_def]
        by_cases h : m < cw - Reader.count r
        · rw [if_pos h, if_pos (Nat.le_of_lt h)]
        · rw [if_neg h]
          by_cases h2 : m ≤ cw - Reader.count r
          · rw [if_pos h2]
            omega
          · rw [if_neg h2]
      have hnewle : max m (cw - Reader.count r) ≤ 65535 := by
        have : cw - Reader.count r ≤ 65535 := by omega
        omega
      have hrec := ih (max m (cw - Reader.count r)) hnewle hcw
        (fun q hq => hg q (by simp [hq]))
      constructor
      · simp only [get_max_diff_from, hcount]
        rw [if_neg hnotbig, hnew]
        rw [hrec.1]
        constructor
        · rintro ⟨q, hq, hgt⟩
          exact ⟨q, by simp [hq], hgt⟩
        · rintro ⟨q, hq, hgt⟩
          rcases List.mem_cons.mp hq with hq1 | hq2
          · exact absurd hgt (by rw [hq1]; omega)
          · exact ⟨q, hq2, hgt⟩
      · intro hall
        simp only [get_max_diff_from, hcount]
        rw [if_neg hnotbig, hnew]
        rw [hrec.2 (fun q hq => hall q (by simp [hq]))]
        simp

/-- Claim C3: get_max_diff returns some of the maximum, over all cursors,
of the supplied head position minus that cursor's total position; it
returns some 0 for a group with zero cursors; and it returns none exactly
when some cursor's observed total position exceeds the supplied head
position (the difference underflows). -/
theorem get_max_diff_spec (g : List Reader) (cw : Nat)
    (hcw : cw < 65536)
    (hg : ∀ r ∈ g, r.pos < USIZE ∧ r.wrap < 65536) :
    (g = [] → get_max_diff g cw = some 0) ∧
    (get_max_diff g cw = none ↔ ∃ r ∈ g, cw < Reader.count r) ∧
    ((∀ r ∈ g, Reader.count r ≤ cw) →
      get_max_diff g cw =
        some ((g.map (fun r => cw - Reader.count r)).foldl max 0)) := by
  have h := get_max_diff_from_spec cw g 0 (by omega) hcw hg
  exact ⟨fun he => by subst he; rfl, h.1, h.2⟩

/-- Witness for Claim C3: a two-cursor group at totals 1 and 3 under a
head position of 5 yields the larger backlog 4, and the same group under
head position 2 reports a cursor ahead (none). -/
theorem get_max_diff_spec_witness :
    get_max_diff [⟨1, 4, ReaderState.Single, 1⟩, ⟨3, 4, ReaderState.Single, 1⟩] 5 =
      some 4 ∧
    get_max_diff [⟨1, 4, ReaderState.Single, 1⟩, ⟨3, 4, ReaderState.Single, 1⟩] 2 =
      none := by
  constructor
  · have h := (get_max_diff_spec
      [⟨1, 4, ReaderState.Single, 1⟩, ⟨3, 4, ReaderState.Single, 1⟩] 5
      (by norm_num) (by decide)).2.2 (by decide)
    rw [h]
    decide
  · have h := (get_max_diff_spec
      [⟨1, 4, ReaderState.Single, 1⟩, ⟨3, 4, ReaderState.Single, 1⟩] 2
      (by norm_num) (by decide)).2.1
    rw [h]
    exact ⟨⟨3, 4, ReaderState.Single, 1⟩, by decide, by decide⟩

/-- Claim C7: commit_attempt behaves by the attempt's mode: Single
commits by unconditional store and terminates; Multi with the share count
reading one demotes the cursor's mode to Single, commits by store and
terminates; otherwise it commits by compare-exchange, terminating on
success and otherwise returning a fresh Multi attempt, the cursor
position being left unchanged by this caller in that case. -/
theorem commit_attempt_spec (r : Reader) (a : ReadAttempt) (b : Nat) :
    (a.state = ReaderState.Single →
      commit_attempt r a b =
        ({ r with pos := commit_direct_store_val r.wrap a.linked b }, none)) ∧
    (a.state = ReaderState.Multi → r.num_consumers = 1 →
      commit_attempt r a b =
        ({ r with state := ReaderState.Single,
                  pos := commit_direct_store_val r.wrap a.linked b }, none)) ∧
    (a.state = ReaderState.Multi → r.num_consumers ≠ 1 →
      (r.pos = a.linked →
        commit_attempt r a b =
          ({ r with pos := commit_store_val r.wrap a.linked b }, none)) ∧
      (r.pos ≠ a.linked →
        commit_attempt r a b = (r, some ⟨r.pos, ReaderState.Multi⟩))) := by
  refine ⟨?_, ?_, ?_⟩
  · intro hs
    simp [commit_attempt, hs]
  · intro hs hn
    simp [commit_attempt, hs, hn]
  · intro hs hn
    constructor
    · intro hpos
      simp [commit_attempt, commit, hs, hn, hpos]
    · intro hpos
      simp [commit_attempt, commit, hs, hn, hpos]

/-- Witness for Claim C7, demotion case: a Multi attempt on a cursor
whose share count reads one commits by store and flips the mode. -/
theorem commit_attempt_spec_witness :
    commit_attempt ⟨0, 4, ReaderState.Multi, 1⟩ ⟨0, ReaderState.Multi⟩ 1 =
      (⟨commit_direct_store_val 4 0 1, 4, ReaderState.Single, 1⟩, none) :=
  (commit_attempt_spec ⟨0, 4, ReaderState.Multi, 1⟩ ⟨0, ReaderState.Multi⟩ 1).2.1
    rfl rfl

/-- QueueEntry of multiqueue.rs: a value cell and its atomic wrap tag. -/
structure QueueEntry where
  val : Nat
  wraps : Nat
deriving DecidableEq

/-- The MultiQueue state the claims exercise: the head word, the tail
cache word, the ring size, the slot ring, and the registered read cursor
that the push and pop paths touch. -/
structure MultiQueue where
  head : Nat
  tail_cache : Nat
  wrap : Nat
  data : List QueueEntry
  reader : Reader
deriving DecidableEq

/-- A push either succeeds or reports Full, carrying back the rejected
value. -/
inductive PushResult
  | Ok
  | Full (v : Nat)
deriving DecidableEq

/-- MultiQueue::reload_tail_single: recompute the slowest-consumer word
as head minus the maximum backlog and store it into the tail cache,
returning it; none models the assert that aborts the process when
get_max_diff reports a cursor ahead of the head.  The head position
passed to get_max_diff is head.load, the 16-bit index. -/
def reload_tail_single (q : MultiQueue) : Option (Nat × MultiQueue) :=
  match get_max_diff [q.reader] (lou16 q.head) with
  | some max_diff_from_head =>
    let current_tail := get_previous q.wrap q.head max_diff_from_head
    some (current_tail, { q with tail_cache := current_tail })
  | none => none

/-- The slot write and head advance at the end of push_single: write the
value into the slot at the head index, store the next wrap tag, and
commit the head forward by one. -/
def publish (q : MultiQueue) (v : Nat) : MultiQueue :=
  { q with
    data := q.data.set (lou16 q.head) ⟨v, wadd (hibits q.head) 1⟩,
    head := commit_direct_store_val q.wrap q.head 1 }

/-- MultiQueue::push_single: if the head snapshot matches the previous
wrap of the tail cache, refresh the cache and, still matching, report
Full with the value; otherwise publish and advance the head.  none
models the abort inside reload_tail_single. -/
def push_single (q : MultiQueue) (v : Nat) : Option (MultiQueue × PushResult) :=
  if matches_previous q.head q.tail_cache then
    match reload_tail_single q with
    | none => none
    | some (rt, q1) =>
      if matches_previous q1.head rt then some (q1, PushResult.Full v)
      else some (publish q1 v, PushResult.Ok)
  else some (publish q v, PushResult.Ok)

/-- MultiQueue::pop, fuel-bounded loop: read the slot at the attempt's
index, report empty unless its tag is the attempt's wrap plus one,
otherwise copy the value out and commit the cursor forward by one,
retrying on a contended commit. -/
def popLoop : Nat → MultiQueue → ReadAttempt → MultiQueue × Option Nat
  | 0, q, _ => (q, none)
  | Nat.succ fuel, q, att =>
    let read_cell := q.data.getD (lou16 att.linked) ⟨0, 0⟩
    if read_cell.wraps ≠ wadd (hibits att.linked) 1 then (q, none)
    else
      match commit_attempt q.reader att 1 with
      | (r1, none) => ({ q with reader := r1 }, some read_cell.val)
      | (r1, some att2) => popLoop fuel { q with reader := r1 } att2

/-- MultiQueue::pop on the queue's registered cursor. -/
def pop (q : MultiQueue) : MultiQueue × Option Nat :=
  popLoop 2 q (Reader.load_attempt q.reader)

/-- Modelled from the spec: MultiQueue construction is commented out in
the source, so the initial state follows the spec: every slot starts with
wrap tag 0, the head starts at raw word 0, and the tail cache holds the
raw word of the slowest consumer as last observed, which is the initial
cursor's word 0; the initial ReadCursor itself is registered at raw word
0 in Single mode with one handle, exactly as ReadCursor::new does in the
source. -/
def initMultiQueue (w : Nat) : MultiQueue :=
  { head := 0, tail_cache := 0, wrap := w,
    data := List.replicate w ⟨0, 0⟩,
    reader := ⟨0, w, ReaderState.Single, 1⟩ }

/-- Push each value in turn through push_single, collecting the results;
the run stops early only if the abort path is hit. -/
def run_pushes : MultiQueue → List Nat → MultiQueue × List PushResult
  | q, [] => (q, [])
  | q, v :: rest =>
    match push_single q v with
    | none => (q, [])
    | some (q1, res) =>
      let p := run_pushes q1 rest
      (p.1, res :: p.2)

/-- Pop to exhaustion: pop until the queue reports empty
(fuel-bounded). -/
def pop_all : Nat → MultiQueue → List Nat
  | 0, _ => []
  | Nat.succ fuel, q =>
    match pop q with
    | (_, none) => []
    | (q1, some v) => v :: pop_all fuel q1

/-- Claim C1 evaluated at the failing input: capacity 1, the writer
pushes 0 and then 1 before the reader moves.  The second push should
report Full, but the fullness refresh compares the head's 16-bit index
(0) with the cursor's total count (0), sees no backlog, and the push
overwrites the unconsumed slot; the reader popping to exhaustion then
observes nothing at all instead of 0 followed by 1. -/
theorem single_pair_loss_evaluation :
    (run_pushes (initMultiQueue 1) [0, 1]).2 = [PushResult.Ok, PushResult.Ok] ∧
    pop_all 4 (run_pushes (initMultiQueue 1) [0, 1]).1 = [] := by
  decide

/-- Claim C2 evaluated at the failing input: capacity 4 with the
never-popping initial consumer.  The fifth push should return Full
carrying 4 and leave the queue unchanged; instead the code accepts all
five pushes, overwrites slot 0 with value 4 at wrap tag 2, and advances
the head to index 1 of wrap 1. -/
theorem fullness_evaluation :
    (run_pushes (initMultiQueue 4) [0, 1, 2, 3, 4]).2 =
      [PushResult.Ok, PushResult.Ok, PushResult.Ok, PushResult.Ok, PushResult.Ok] ∧
    (run_pushes (initMultiQueue 4) [0, 1, 2, 3, 4]).1.data.getD 0 ⟨0, 0⟩ =
      ⟨4, 2⟩ ∧
    (run_pushes (initMultiQueue 4) [0, 1, 2, 3, 4]).1.head = 65537 := by
  decide

/-- Claim C8: in Single mode the tail-cache refresh aborts exactly when
get_max_diff reports the cursor's total ahead of the supplied head
position; when get_max_diff yields a backlog d, reload_tail_single
stores head minus d into the tail cache and returns that word without
panicking; and push_single can only panic through that abort, reporting
fullness solely by handing the value back. -/
theorem reload_tail_single_spec (q : MultiQueue) (v : Nat)
    (hp : q.reader.pos < USIZE) (hw : q.reader.wrap < 65536) :
    (reload_tail_single q = none ↔ lou16 q.head < Reader.count q.reader) ∧
    (∀ d, get_max_diff [q.reader] (lou16 q.head) = some d →
      reload_tail_single q =
        some (get_previous q.wrap q.head d,
          { q with tail_cache := get_previous q.wrap q.head d })) ∧
    (push_single q v = none → reload_tail_single q = none) ∧
    (∀ q1 res, push_single q v = some (q1, res) →
      res = PushResult.Ok ∨ res = PushResult.Full v) := by
  have hcw : lou16 q.head < 65536 := by
    simp only [lou16, U16MOD]
    omega
  have hspec := get_max_diff_from_spec (lou16 q.head) [q.reader] 0 (by omega) hcw
    (by
      intro r hr
      rw [List.mem_singleton.mp hr]
      exact ⟨hp, hw⟩)
  have hnone : get_max_diff [q.reader] (lou16 q.head) = none ↔
      lou16 q.head < Reader.count q.reader := by
    rw [show get_max_diff [q.reader] (lou16 q.head) =
        get_max_diff_from (lou16 q.head) [q.reader] 0 from rfl, hspec.1]
    constructor
    · rintro ⟨r, hr, h⟩
      rwa [List.mem_singleton.mp hr] at h
    · intro h
      exact ⟨q.reader, by simp, h⟩
  refine ⟨?_, ?_, ?_, ?_⟩
  · rw [← hnone]
    unfold reload_tail_single
    cases hgd : get_max_diff [q.reader] (lou16 q.head) <;> simp [hgd]
  · intro d hd
    unfold reload_tail_single
    rw [hd]
  · intro hpush
    unfold push_single at hpush
    split at hpush
    · cases hrl : reload_tail_single q
      · rfl
      · rename_i val
        rcases val with ⟨rt, q2⟩
        rw [hrl] at hpush
        dsimp only at hpush
        split at hpush <;> simp at hpush
    · simp at hpush
  · intro q1 res hpush
    unfold push_single at hpush
    split at hpush
    · cases hrl : reload_tail_single q
      · rw [hrl] at hpush
        simp at hpush
      · rename_i val
        rcases val with ⟨rt, q2⟩
        rw [hrl] at hpush
        dsimp only at hpush
        split at hpush
        · right
          simp only [Option.some.injEq, Prod.mk.injEq] at hpush
          exact hpush.2.symm
        · left
          simp only [Option.some.injEq, Prod.mk.injEq] at hpush
          exact hpush.2.symm
    · left
      simp only [Option.some.injEq, Prod.mk.injEq] at hpush
      exact hpush.2.symm

/-- Witness for Claim C8: head at index 0 of wrap 1 with the cursor at
total 0 refreshes the tail cache to the word one whole wrap behind the
head and returns it. -/
theorem reload_tail_single_spec_witness :
    reload_tail_single ⟨65536, 0, 4, [], ⟨0, 4, ReaderState.Single, 1⟩⟩ =
      some (65536, ⟨65536, 65536, 4, [], ⟨0, 4, ReaderState.Single, 1⟩⟩) := by
  have h := (reload_tail_single_spec ⟨65536, 0, 4, [], ⟨0, 4, ReaderState.Single, 1⟩⟩ 0
    (by norm_num [USIZE]) (by norm_num)).2.1 0 (by decide)
  rw [h]
  decide

/-- Whatever the mode, committing a freshly loaded attempt terminates in
one step in a sequential execution (shared helper). -/
theorem commit_attempt_self_terminal (r : Reader) (b : Nat) :
    (commit_attempt r (Reader.load_attempt r) b).2 = none := by
  unfold commit_attempt Reader.load_attempt commit
  cases r.state
  · rfl
  · by_cases h : r.num_consumers == 1
    · simp [h]
    · simp [h]

/-- Committing a freshly loaded attempt advances the position by the
direct store word, demoting the mode exactly in the Multi case with a
share count of one (shared helper). -/
theorem commit_attempt_self_fst (r : Reader) (b : Nat) :
    (commit_attempt r (Reader.load_attempt r) b).1 =
      { r with
        pos := commit_direct_store_val r.wrap r.pos b,
        state := if r.state = ReaderState.Multi ∧ r.num_consumers = 1
                 then ReaderState.Single else r.state } := by
  unfold commit_attempt Reader.load_attempt commit
  cases hs : r.state
  · simp [hs]
  · by_cases h : r.num_consumers = 1
    · simp [hs, h]
    · simp [hs, h, commit_store_val_eq_direct]

/-- In a sequential execution pop performs at most one loop iteration:
empty on a tag mismatch, otherwise the value with the committed cursor
(shared helper). -/
theorem pop_eq (q : MultiQueue) :
    pop q =
      (if (q.data.getD (lou16 q.reader.pos) ⟨0, 0⟩).wraps ≠ wadd (hibits q.reader.pos) 1
       then (q, none)
       else
        ({ q with reader := (commit_attempt q.reader (Reader.load_attempt q.reader) 1).1 },
          some (q.data.getD (lou16 q.reader.pos) ⟨0, 0⟩).val)) := by
  have hterm := commit_attempt_self_terminal q.reader 1
  unfold pop popLoop
  simp only [Reader.load_attempt]
  split
  · rfl
  · cases hca : commit_attempt q.reader ⟨q.reader.pos, q.reader.state⟩ 1 with
    | mk r1 o =>
      have ho : o = none := by
        rw [show (commit_attempt q.reader (Reader.load_attempt q.reader) 1) =
            (r1, o) from hca] at hterm
        exact hterm
      subst ho
      simp [Reader.load_attempt, hca]

/-- Claim C10 counterexample: pop can modify more of the queue state
than the invoking cursor's position: a successful pop through a Multi
cursor whose share count reads one also flips the cursor's mode flag to
Single. -/
theorem pop_mode_counterexample :
    (pop ⟨65536, 0, 1, [⟨7, 1⟩], ⟨0, 1, ReaderState.Multi, 1⟩⟩).2 = some 7 ∧
    (pop ⟨65536, 0, 1, [⟨7, 1⟩], ⟨0, 1, ReaderState.Multi, 1⟩⟩).1.reader.state ≠
      (⟨0, 1, ReaderState.Multi, 1⟩ : Reader).state := by
  decide

/-- Claim C10 (amended): pop never writes to any slot's value cell or
wrap tag; when it returns none the whole queue is unchanged; when it
returns some value the only modifications are to the invoking cursor,
whose total position advances by exactly one and whose mode flag is
demoted from Multi to Single exactly when the share count reads one, so
the popped slot still carries its published tag and value for other
cursors. -/
theorem pop_frame (q : MultiQueue)
    (hp : q.reader.pos < USIZE) (hw1 : 1 ≤ q.reader.wrap)
    (hw2 : q.reader.wrap < 65536)
    (hidx : lou16 q.reader.pos < q.reader.wrap)
    (halias : Reader.count q.reader + 1 < POW48) :
    (pop q).1.data = q.data ∧
    ((pop q).2 = none → (pop q).1 = q) ∧
    (∀ v, (pop q).2 = some v →
      (pop q).1.head = q.head ∧
      (pop q).1.tail_cache = q.tail_cache ∧
      (pop q).1.wrap = q.wrap ∧
      (pop q).1.reader.wrap = q.reader.wrap ∧
      (pop q).1.reader.num_consumers = q.reader.num_consumers ∧
      Reader.count (pop q).1.reader = Reader.count q.reader + 1 ∧
      ((pop q).1.reader.state = q.reader.state ∨
        (q.reader.state = ReaderState.Multi ∧ q.reader.num_consumers = 1 ∧
          (pop q).1.reader.state = ReaderState.Single))) := by
  have hstep := commit_direct_store_val_count q.reader.wrap q.reader.pos 1
    hw1 hw1 (by omega) hidx hp halias
  have hfst := commit_attempt_self_fst q.reader 1
  rw [pop_eq q]
  split
  · exact ⟨rfl, fun _ => rfl, fun v hv => by simp at hv⟩
  · refine ⟨by simp [hfst], fun hn => by simp at hn, fun v hv => ?_⟩
    refine ⟨rfl, rfl, rfl, by simp [hfst], by simp [hfst], ?_, ?_⟩
    · show Reader.count (commit_attempt q.reader (Reader.load_attempt q.reader) 1).1 =
        Reader.count q.reader + 1
      rw [hfst]
      show load_count q.reader.wrap (commit_direct_store_val q.reader.wrap q.reader.pos 1) =
        Reader.count q.reader + 1
      exact hstep.1
    · show (commit_attempt q.reader (Reader.load_attempt q.reader) 1).1.state =
          q.reader.state ∨ _
      rw [hfst]
      by_cases hms : q.reader.state = ReaderState.Multi ∧ q.reader.num_consumers = 1
      · right
        exact ⟨hms.1, hms.2, by simp [hms]⟩
      · left
        simp [hms]

/-- Witness for Claim C10: a Single-mode cursor at total 0 pops the
published value 5 and its total position becomes 1. -/
theorem pop_frame_witness :
    (pop ⟨65536, 0, 2, [⟨5, 1⟩, ⟨0, 0⟩], ⟨0, 2, ReaderState.Single, 1⟩⟩).2 = some 5 ∧
    Reader.count (pop ⟨65536, 0, 2, [⟨5, 1⟩, ⟨0, 0⟩],
        ⟨0, 2, ReaderState.Single, 1⟩⟩).1.reader =
      Reader.count (⟨0, 2, ReaderState.Single, 1⟩ : Reader) + 1 :=
  ⟨by decide,
    ((pop_frame ⟨65536, 0, 2, [⟨5, 1⟩, ⟨0, 0⟩], ⟨0, 2, ReaderState.Single, 1⟩⟩
        (by norm_num [USIZE]) (by norm_num) (by norm_num)
        (by norm_num [lou16, U16MOD])
        (by norm_num [Reader.count, load_count, lou16, hibits, POW48])).2.2 5
      (by decide)).2.2.2.2.2.1⟩

end Pipeline
